import Mathlib

/-!
Verification of the step7_malloc allocator framework.

Shallow embedding of:
- the best-fit allocator (src/unnamed/part_000): a size-keyed binary tree of
  free blocks with a single-rotation rebalancing pass;
- the first-fit allocator (src/first_fit_malloc.c): a singly-linked free list;
- the workload harness tagging/corruption checks (src/main.c).

Machine model: the code targets LP64 (main.c prints sizeof(size_t) = 8),
so sizeof(first_fit_metadata_t) = 16 and sizeof(best_fit_metadata_t) = 32
(8-byte size_t, two 8-byte pointers, a 4-byte int padded to 8).
Addresses and sizes are modelled as Nat; none of the arithmetic below can
reach 2^64 in the states the theorems quantify over, and every subtraction
mirrors one the C code performs only when the minuend is at least as large.
Pointers are modelled by natural-number addresses; NULL pointers in the
tree linkage are the `Tree.nil` constructor.
-/

namespace Malloc

/-! ## Best-fit tree (src/unnamed/part_000)

A `Tree` is either NULL (`nil`) or a `best_fit_metadata_t` node:
`size` is the payload size, `id` is the node's address (pointer identity),
`left`/`right` are the child pointers and `height` is the stored `height`
field (an `int` in C, always non-negative in every reachable state).
-/

inductive Tree where
  | nil : Tree
  | node (size : Nat) (id : Nat) (left : Tree) (right : Tree) (height : Nat) : Tree
deriving DecidableEq, Repr

/-- `tree->left ? tree->left->height : 0` : the stored height of a possibly
NULL subtree. -/
def heightOf : Tree → Nat
  | .nil => 0
  | .node _ _ _ _ h => h

/-- `metadata->size`; the `nil` case is never reached by the code (the C
would dereference NULL). -/
def msize : Tree → Nat
  | .nil => 0
  | .node sz _ _ _ _ => sz

/-- `best_fit_balance_tree` (part_000 lines 33-52).  Recomputes the stored
height from the children's stored heights, then performs a single left or
right rotation when the stored child heights differ by more than one.  The
rotated-up child keeps its stale stored height, exactly as in the C code.
The `nil` fallbacks inside the rotation branches are unreachable: a branch
is entered only when the corresponding child's stored height exceeds
`other + 1 ≥ 1`, and a NULL child reads as height 0.
The helper `max` is declared but not defined under src; modelled from the
spec: `height = 1 + max(height(left), height(right))`. -/
def best_fit_balance_tree : Tree → Tree
  | .nil => .nil
  | .node sz id l r _ =>
    let lh := heightOf l
    let rh := heightOf r
    let h := 1 + Nat.max lh rh
    if lh + 1 < rh then
      match r with
      | .node rsz rid rl rr rh2 => .node rsz rid (.node sz id l rl h) rr rh2
      | .nil => .node sz id l r h
    else if rh + 1 < lh then
      match l with
      | .node lsz lid ll lr lh2 => .node lsz lid ll (.node sz id lr r h) lh2
      | .nil => .node sz id l r h
    else
      .node sz id l r h

/-- `best_fit_insert_recursive` (part_000 lines 54-64).  `m` is the
`metadata` argument; when the descent reaches NULL the metadata node is
grafted in as is, with whatever linkage fields it carries. -/
def best_fit_insert_recursive (m : Tree) : Tree → Tree
  | .nil => m
  | .node sz id l r h =>
    if msize m < sz then
      best_fit_balance_tree (.node sz id (best_fit_insert_recursive m l) r h)
    else
      best_fit_balance_tree (.node sz id l (best_fit_insert_recursive m r) h)

/-- `best_fit_insert_to_tree` (part_000 lines 92-94), acting on an explicit
tree instead of the global `best_fit_tree.free_head`. -/
def best_fit_insert_to_tree (m : Tree) (t : Tree) : Tree :=
  best_fit_insert_recursive m t

/-- Inserting a detached header: a node whose `left`/`right` are NULL and
whose `height` is 1, as every call site of `best_fit_insert_to_tree`
produces (fresh page, split remainder, or a block freed after
`best_fit_malloc` reset its linkage). -/
def insertBlock (sz id : Nat) (t : Tree) : Tree :=
  best_fit_insert_to_tree (.node sz id .nil .nil 1) t

/-- `root = tree->right; while (root->left) root = root->left;`
(part_000 lines 75-77): the size, address and stored height of the leftmost
node.  The `nil` case is unreachable at the call site (guarded by
`tree->right != NULL`). -/
def leftmost : Tree → Nat × Nat × Nat
  | .nil => (0, 0, 0)
  | .node sz id l _ h =>
    match l with
    | .nil => (sz, id, h)
    | .node .. => leftmost l

/-- `best_fit_remove_recursive` (part_000 lines 66-90).  The `metadata`
argument is represented by its size `msz` and address `mid`; pointer
equality `metadata == tree` becomes address equality.  Reaching NULL with a
non-NULL `metadata` dereferences NULL in C; that undefined path is `none`.
In the pointer-equal case with two children the in-order successor is
promoted, keeping its own stored height, and no rebalancing happens at
that node, exactly as in the source. -/
def best_fit_remove_recursive (msz mid : Nat) : Tree → Option Tree
  | .nil => none
  | .node sz id l r h =>
    if mid = id then
      match l with
      | .nil => some r
      | .node .. =>
        match r with
        | .nil => some l
        | .node .. =>
          let rt := leftmost r
          (best_fit_remove_recursive rt.1 rt.2.1 r).map
            (fun rr => .node rt.1 rt.2.1 l rr rt.2.2)
    else if sz < msz then
      (best_fit_remove_recursive msz mid r).map
        (fun rr => best_fit_balance_tree (.node sz id l rr h))
    else
      (best_fit_remove_recursive msz mid l).map
        (fun ll => best_fit_balance_tree (.node sz id ll r h))

/-- `best_fit_remove_from_tree` (part_000 lines 96-98). -/
def best_fit_remove_from_tree (msz mid : Nat) (t : Tree) : Option Tree :=
  best_fit_remove_recursive msz mid t

/-- The tree set up by the best-fit init function (part_000 lines 101-107):
`free_head` points at the dummy node of size 0 with NULL children and
height 1.  The dummy's address is modelled as 0. -/
def initTree : Tree := .node 0 0 .nil .nil 1

/-- The search loop of `best_fit_malloc` (part_000 lines 114-124): descend
from the root, going right past nodes that are too small, recording a node
and going left when it fits.  Returns the size and address of the final
`best`, or `none` when `best` stays NULL. -/
def bestFitSearch (size : Nat) : Tree → Option (Nat × Nat)
  | .nil => none
  | .node sz id l r _ =>
    if sz < size then bestFitSearch size r
    else
      match bestFitSearch size l with
      | some b => some b
      | none => some (sz, id)

/-- The header of a handed-out best-fit block: the `best_fit_metadata_t`
fields as they stand when `best_fit_malloc` returns. -/
structure Header where
  size : Nat
  left : Tree
  right : Tree
  height : Nat
deriving DecidableEq, Repr

/-- Best-fit allocator state: the free tree and the address the next
`mmap_from_system` call returns (pages are handed out contiguously in the
model; only the count of pages matters to the theorems). -/
structure BFState where
  tree : Tree
  nextPage : Nat
deriving DecidableEq, Repr

/-- `sizeof(best_fit_metadata_t)` on LP64: 8 + 8 + 8 + 4 padded to 32. -/
def bfHeaderSize : Nat := 32

/-- `sizeof(first_fit_metadata_t)` on LP64: 8 + 8. -/
def ffHeaderSize : Nat := 16

/-- The `buffer_size` of a page request. -/
def pageSize : Nat := 4096

/-- `best_fit_malloc` (part_000 lines 113-184), with explicit fuel bounding
the self-recursive retry after a page request (the C function calls itself
after mmap).  Returns the payload pointer, the header of the handed-out
block, and the new state; `none` means the fuel ran out (the C code is
still recursing) or the removal dereferenced NULL.  After the removal the
code sets `best->left = best->right = NULL` and `best->height = 1`
(lines 157-159); in the split branch (`remaining_size >
sizeof(best_fit_metadata_t)`) it shrinks `best->size` to the request and
inserts a fresh header at `ptr + size` for the remainder. -/
def bestFitMallocF : Nat → Nat → BFState → Option (Nat × Header × BFState)
  | 0, _, _ => none
  | fuel+1, size, s =>
    match bestFitSearch size s.tree with
    | none =>
      bestFitMallocF fuel size
        { tree := insertBlock (pageSize - bfHeaderSize) s.nextPage s.tree,
          nextPage := s.nextPage + pageSize }
    | some (bsz, bid) =>
      match best_fit_remove_from_tree bsz bid s.tree with
      | none => none
      | some t1 =>
        let ptr := bid + bfHeaderSize
        let remaining := bsz - size
        if bfHeaderSize < remaining then
          some (ptr, ⟨size, .nil, .nil, 1⟩,
                { tree := insertBlock (remaining - bfHeaderSize) (ptr + size) t1,
                  nextPage := s.nextPage })
        else
          some (ptr, ⟨bsz, .nil, .nil, 1⟩, { tree := t1, nextPage := s.nextPage })

/-- `best_fit_free` (part_000 lines 188-197): compute the header at
`ptr - sizeof(best_fit_metadata_t)` and insert it into the tree without
touching any of its fields.  `h` is the header contents read from memory. -/
def best_fit_free (ptr : Nat) (h : Header) (t : Tree) : Tree :=
  best_fit_insert_to_tree (.node h.size (ptr - bfHeaderSize) h.left h.right h.height) t

/-! ## First-fit allocator (src/first_fit_malloc.c)

The free list is a list of `(address, size)` pairs in list order starting
at `free_head`.  The list set up by the first-fit init function holds only
the dummy slot of size 0 (its address modelled as 0). -/

def initFreeList : List (Nat × Nat) := [(0, 0)]

/-- First-fit allocator state. -/
structure FFState where
  freeList : List (Nat × Nat)
  nextPage : Nat
deriving DecidableEq, Repr

/-- The scan-with-predecessor of `first_fit_malloc` (lines 74-80) fused
with `first_fit_remove_from_free_list` (lines 52-60): returns the first
block whose size fits together with the list with that block unlinked
(order of the remaining blocks unchanged), or `none` when the scan falls
off the end. -/
def ffSearch (size : Nat) : List (Nat × Nat) → Option ((Nat × Nat) × List (Nat × Nat))
  | [] => none
  | b :: rest =>
    if b.2 < size then
      (ffSearch size rest).map (fun p => (p.1, b :: p.2))
    else
      some (b, rest)

/-- `first_fit_malloc` (lines 73-133) with explicit fuel for the
self-recursive retry after a page request.  Returns the payload pointer,
the `size` field of the handed-out header, and the new state.  A fresh page
is formatted as a single free block of size `4096 -
sizeof(first_fit_metadata_t)` and pushed onto the head of the list
(`first_fit_add_to_free_list`); the split remainder is likewise pushed
onto the head. -/
def firstFitMallocF : Nat → Nat → FFState → Option (Nat × Nat × FFState)
  | 0, _, _ => none
  | fuel+1, size, s =>
    match ffSearch size s.freeList with
    | none =>
      firstFitMallocF fuel size
        { freeList := (s.nextPage, pageSize - ffHeaderSize) :: s.freeList,
          nextPage := s.nextPage + pageSize }
    | some ((a, bsz), rest) =>
      let ptr := a + ffHeaderSize
      let remaining := bsz - size
      if ffHeaderSize < remaining then
        some (ptr, size,
              { freeList := (ptr + size, remaining - ffHeaderSize) :: rest,
                nextPage := s.nextPage })
      else
        some (ptr, bsz, { freeList := rest, nextPage := s.nextPage })

/-- `first_fit_free` (lines 137-146): compute the header at
`ptr - sizeof(first_fit_metadata_t)` and push it onto the head of the free
list.  `mem a` is the `size` field stored at address `a`. -/
def first_fit_free (ptr : Nat) (mem : Nat → Nat) (freeList : List (Nat × Nat)) :
    List (Nat × Nat) :=
  (ptr - ffHeaderSize, mem (ptr - ffHeaderSize)) :: freeList

/-! ## Workload harness (src/main.c) -/

/-- One step of the tag counter in `run_challenge` (lines 201-206):
`tag++; if (tag == 0) tag++;` on a `char`, modelled as its 8-bit pattern. -/
def nextTag (t : Nat) : Nat :=
  let u := (t + 1) % 256
  if u = 0 then (u + 1) % 256 else u

/-- The tag stamped on the n-th object allocated in one `run_challenge`
call: the counter starts at 0 (line 168) and the current value is used
before being advanced (lines 199-206). -/
def tagAt : Nat → Nat
  | 0 => 0
  | n+1 => nextTag (tagAt n)

/-- A harness object record (`object_t`, main.c lines 29-33). -/
structure WObject where
  ptr : Nat
  size : Nat
  tag : Nat

/-- The corruption check of `run_challenge` (lines 221-223): the first and
last payload byte must both still hold the recorded tag. -/
def tagCheck (mem : Nat → Nat) (o : WObject) : Bool :=
  (mem o.ptr == o.tag) && (mem (o.ptr + (o.size - 1)) == o.tag)

/-- Releasing one scheduled object with the first-fit allocator under test
(lines 216-230): on a tag mismatch `assert(0)` aborts before `free_func`
runs (`none`); otherwise the block is freed. -/
def releaseObjectFF (mem : Nat → Nat) (o : WObject) (s : List (Nat × Nat)) :
    Option (List (Nat × Nat)) :=
  if tagCheck mem o then some (first_fit_free o.ptr mem s) else none

/-- Releasing one scheduled object with the best-fit allocator under test;
`h` is the header at `o.ptr - sizeof(best_fit_metadata_t)`. -/
def releaseObjectBF (mem : Nat → Nat) (o : WObject) (h : Header) (t : Tree) :
    Option Tree :=
  if tagCheck mem o then some (best_fit_free o.ptr h t) else none

/-! ## Specification-side predicates on trees -/

/-- Every node size in the tree satisfies `p`. -/
def treeAll (p : Nat → Bool) : Tree → Bool
  | .nil => true
  | .node sz _ l r _ => p sz && treeAll p l && treeAll p r

/-- Search-tree ordering: sizes in the left subtree are at most the node's
size, sizes in the right subtree at least it.  (Insertion puts strictly
smaller keys left and ties right, but the single rotations of
`best_fit_balance_tree` can move an equal key to the left side, so the
invariant the code actually maintains is the non-strict one.) -/
def isBST : Tree → Bool
  | .nil => true
  | .node sz _ l r _ =>
    treeAll (fun x => decide (x ≤ sz)) l && treeAll (fun x => decide (sz ≤ x)) r &&
      isBST l && isBST r

/-- The actual height of the tree (not the stored `height` fields). -/
def realHeight : Tree → Nat
  | .nil => 0
  | .node _ _ l r _ => 1 + Nat.max (realHeight l) (realHeight r)

/-- AVL height balance: at every node the actual heights of the two
subtrees differ by at most one. -/
def isAVL : Tree → Bool
  | .nil => true
  | .node _ _ l r _ =>
    decide (realHeight l ≤ realHeight r + 1) && decide (realHeight r ≤ realHeight l + 1) &&
      isAVL l && isAVL r

/-- The multiset of `(address, size)` blocks held in the tree. -/
def treeBlocks : Tree → Multiset (Nat × Nat)
  | .nil => 0
  | .node sz id l r _ => {(id, sz)} + (treeBlocks l + treeBlocks r)

/-- An operation on the free-block tree: inserting a detached block or
removing the block at a given address. -/
inductive TreeOp where
  | ins (sz id : Nat)
  | del (sz id : Nat)

/-- Apply one tree operation; removal is `none` on the undefined NULL
dereference path. -/
def applyOp (t : Tree) : TreeOp → Option Tree
  | .ins sz id => some (insertBlock sz id t)
  | .del sz id => best_fit_remove_from_tree sz id t

/-- Run a sequence of tree operations from the initial (dummy-only) tree. -/
def runOps (ops : List TreeOp) : Option Tree :=
  ops.foldl (fun ot op => ot.bind (fun t => applyOp t op)) (some initTree)

/-! ## Helper lemmas -/

theorem treeAll_imp {p q : Nat → Bool} (hpq : ∀ x, p x = true → q x = true) :
    ∀ {t : Tree}, treeAll p t = true → treeAll q t = true := by
  intro t
  induction t with
  | nil => simp [treeAll]
  | node sz id l r h ihl ihr =>
    simp only [treeAll, Bool.and_eq_true]
    rintro ⟨⟨h1, h2⟩, h3⟩
    exact ⟨⟨hpq _ h1, ihl h2⟩, ihr h3⟩

theorem treeAll_le_trans {a b : Nat} (hab : a ≤ b) {t : Tree}
    (h : treeAll (fun x => decide (x ≤ a)) t = true) :
    treeAll (fun x => decide (x ≤ b)) t = true :=
  treeAll_imp (fun x hx => by simp only [decide_eq_true_eq] at hx ⊢; omega) h

theorem treeAll_ge_trans {a b : Nat} (hab : b ≤ a) {t : Tree}
    (h : treeAll (fun x => decide (a ≤ x)) t = true) :
    treeAll (fun x => decide (b ≤ x)) t = true :=
  treeAll_imp (fun x hx => by simp only [decide_eq_true_eq] at hx ⊢; omega) h

/-- `best_fit_balance_tree` either just rewrites the stored height, or
performs one left rotation, or one right rotation. -/
theorem balance_cases (sz id : Nat) (l r : Tree) (h : Nat) :
    (∃ h2, best_fit_balance_tree (.node sz id l r h) = .node sz id l r h2) ∨
    (∃ rsz rid rl rr rh2 h2, r = .node rsz rid rl rr rh2 ∧
      best_fit_balance_tree (.node sz id l r h) =
        .node rsz rid (.node sz id l rl h2) rr rh2) ∨
    (∃ lsz lid ll lr lh2 h2, l = .node lsz lid ll lr lh2 ∧
      best_fit_balance_tree (.node sz id l r h) =
        .node lsz lid ll (.node sz id lr r h2) lh2) := by
  simp only [best_fit_balance_tree]
  split
  · cases r with
    | nil => exact Or.inl ⟨_, rfl⟩
    | node rsz rid rl rr rh2 => exact Or.inr (Or.inl ⟨rsz, rid, rl, rr, rh2, _, rfl, rfl⟩)
  · split
    · cases l with
      | nil => exact Or.inl ⟨_, rfl⟩
      | node lsz lid ll lr lh2 => exact Or.inr (Or.inr ⟨lsz, lid, ll, lr, lh2, _, rfl, rfl⟩)
    · exact Or.inl ⟨_, rfl⟩

theorem treeAll_balance {p : Nat → Bool} {t : Tree} :
    treeAll p (best_fit_balance_tree t) = true ↔ treeAll p t = true := by
  cases t with
  | nil => simp [best_fit_balance_tree]
  | node sz id l r h =>
    rcases balance_cases sz id l r h with ⟨h2, heq⟩ |
        ⟨rsz, rid, rl, rr, rh2, h2, hr, heq⟩ | ⟨lsz, lid, ll, lr, lh2, h2, hl, heq⟩ <;>
      subst_vars <;> rw [heq] <;> simp only [treeAll, Bool.and_eq_true] <;> tauto

theorem treeBlocks_balance (t : Tree) :
    treeBlocks (best_fit_balance_tree t) = treeBlocks t := by
  cases t with
  | nil => rfl
  | node sz id l r h =>
    rcases balance_cases sz id l r h with ⟨h2, heq⟩ |
        ⟨rsz, rid, rl, rr, rh2, h2, hr, heq⟩ | ⟨lsz, lid, ll, lr, lh2, h2, hl, heq⟩ <;>
      subst_vars <;> rw [heq] <;> simp only [treeBlocks] <;> abel

theorem isBST_balance {t : Tree} (hb : isBST t = true) :
    isBST (best_fit_balance_tree t) = true := by
  cases t with
  | nil => simpa [best_fit_balance_tree] using hb
  | node sz id l r h =>
    rcases balance_cases sz id l r h with ⟨h2, heq⟩ |
        ⟨rsz, rid, rl, rr, rh2, h2, hr, heq⟩ | ⟨lsz, lid, ll, lr, lh2, h2, hl, heq⟩
    · rw [heq]
      simpa only [isBST] using hb
    · subst hr
      rw [heq]
      simp only [isBST, treeAll, Bool.and_eq_true, decide_eq_true_eq] at hb ⊢
      obtain ⟨⟨⟨hall_l, ⟨⟨hrsz, hall_rl⟩, hall_rr⟩⟩, hbl⟩, ⟨⟨hrl, hrr⟩, hbrl⟩, hbrr⟩ := hb
      exact ⟨⟨⟨⟨⟨hrsz, treeAll_le_trans hrsz hall_l⟩, hrl⟩, hrr⟩,
             ⟨⟨hall_l, hall_rl⟩, hbl⟩, hbrl⟩, hbrr⟩
    · subst hl
      rw [heq]
      simp only [isBST, treeAll, Bool.and_eq_true, decide_eq_true_eq] at hb ⊢
      obtain ⟨⟨⟨⟨⟨hlsz, hall_ll⟩, hall_lr⟩, hall_r⟩, ⟨⟨hll, hlr⟩, hbll⟩, hblr⟩, hbr⟩ := hb
      exact ⟨⟨⟨hll, ⟨⟨hlsz, hlr⟩, treeAll_ge_trans hlsz hall_r⟩⟩, hbll⟩,
             ⟨⟨hall_lr, hall_r⟩, hblr⟩, hbr⟩

theorem treeAll_insert {p : Nat → Bool} {m : Tree} : ∀ {t : Tree},
    treeAll p (best_fit_insert_recursive m t) = true ↔
      (treeAll p m = true ∧ treeAll p t = true) := by
  intro t
  induction t with
  | nil => simp [best_fit_insert_recursive, treeAll]
  | node sz id l r h ihl ihr =>
    simp only [best_fit_insert_recursive]
    split
    · rw [treeAll_balance]
      simp only [treeAll, Bool.and_eq_true, ihl]
      tauto
    · rw [treeAll_balance]
      simp only [treeAll, Bool.and_eq_true, ihr]
      tauto

theorem treeBlocks_insert (m : Tree) : ∀ (t : Tree),
    treeBlocks (best_fit_insert_recursive m t) = treeBlocks m + treeBlocks t := by
  intro t
  induction t with
  | nil => simp [best_fit_insert_recursive, treeBlocks]
  | node sz id l r h ihl ihr =>
    simp only [best_fit_insert_recursive]
    split <;> rw [treeBlocks_balance] <;> simp only [treeBlocks, ihl, ihr] <;> abel

theorem isBST_insert_leaf {sz id : Nat} : ∀ {t : Tree}, isBST t = true →
    isBST (best_fit_insert_recursive (.node sz id .nil .nil 1) t) = true := by
  intro t
  induction t with
  | nil =>
    intro
    simp [best_fit_insert_recursive, isBST, treeAll]
  | node sz0 id0 l r h ihl ihr =>
    intro hb
    simp only [isBST, Bool.and_eq_true] at hb
    obtain ⟨⟨⟨hall_l, hall_r⟩, hbl⟩, hbr⟩ := hb
    simp only [best_fit_insert_recursive, msize]
    split
    · rename_i hlt
      apply isBST_balance
      simp only [isBST, Bool.and_eq_true]
      refine ⟨⟨⟨?_, hall_r⟩, ihl hbl⟩, hbr⟩
      rw [treeAll_insert]
      refine ⟨?_, hall_l⟩
      simp [treeAll]
      omega
    · rename_i hge
      apply isBST_balance
      simp only [isBST, Bool.and_eq_true]
      refine ⟨⟨⟨hall_l, ?_⟩, hbl⟩, ihr hbr⟩
      rw [treeAll_insert]
      refine ⟨?_, hall_r⟩
      simp [treeAll]
      omega

theorem isBST_insertBlock {sz id : Nat} {t : Tree} (hb : isBST t = true) :
    isBST (insertBlock sz id t) = true :=
  isBST_insert_leaf hb

theorem treeAll_insertBlock {p : Nat → Bool} {sz id : Nat} {t : Tree} :
    treeAll p (insertBlock sz id t) = true ↔ (p sz = true ∧ treeAll p t = true) := by
  unfold insertBlock best_fit_insert_to_tree
  rw [treeAll_insert]
  simp [treeAll]

theorem leftmost_all {p : Nat → Bool} : ∀ {t : Tree}, treeAll p t = true → t ≠ .nil →
    p (leftmost t).1 = true := by
  intro t
  induction t with
  | nil => intro _ hne; exact absurd rfl hne
  | node sz id l r h ihl ihr =>
    intro hall _
    simp only [treeAll, Bool.and_eq_true] at hall
    obtain ⟨⟨hp, hl⟩, _⟩ := hall
    cases l with
    | nil => simpa [leftmost] using hp
    | node a b c d e =>
      simp only [leftmost]
      exact ihl hl (by simp)

theorem leftmost_node_nil (sz id : Nat) (r : Tree) (h : Nat) :
    leftmost (.node sz id .nil r h) = (sz, id, h) := rfl

theorem leftmost_node_node (sz id a b : Nat) (c d : Tree) (e : Nat) (r : Tree) (h : Nat) :
    leftmost (.node sz id (.node a b c d e) r h) = leftmost (.node a b c d e) := rfl

theorem leftmost_min : ∀ {t : Tree}, isBST t = true → t ≠ .nil →
    treeAll (fun x => decide ((leftmost t).1 ≤ x)) t = true := by
  intro t
  induction t with
  | nil => intro _ hne; exact absurd rfl hne
  | node sz id l r h ihl ihr =>
    intro hb _
    simp only [isBST, Bool.and_eq_true] at hb
    obtain ⟨⟨⟨hall_l, hall_r⟩, hbl⟩, hbr⟩ := hb
    cases l with
    | nil =>
      rw [leftmost_node_nil]
      simp only [treeAll, Bool.and_eq_true, decide_eq_true_eq]
      exact ⟨⟨le_refl _, trivial⟩, hall_r⟩
    | node a b c d e =>
      rw [leftmost_node_node]
      have hmem : (leftmost (Tree.node a b c d e)).1 ≤ sz := by
        simpa using leftmost_all (p := fun x => decide (x ≤ sz)) hall_l (by simp)
      have hl2 := ihl hbl (by simp)
      simp only [treeAll, Bool.and_eq_true, decide_eq_true_eq] at hl2 ⊢
      exact ⟨⟨hmem, hl2⟩, treeAll_ge_trans hmem hall_r⟩

theorem bestFitSearch_ge {size : Nat} : ∀ {t : Tree} {b : Nat × Nat},
    bestFitSearch size t = some b → size ≤ b.1 := by
  intro t
  induction t with
  | nil => intro b hb; simp [bestFitSearch] at hb
  | node sz id l r h ihl ihr =>
    intro b hb
    simp only [bestFitSearch] at hb
    split at hb
    · exact ihr hb
    · rename_i hge
      cases hsl : bestFitSearch size l with
      | some b2 =>
        rw [hsl] at hb
        simp only [Option.some.injEq] at hb
        subst hb
        exact ihl hsl
      | none =>
        rw [hsl] at hb
        simp only [Option.some.injEq] at hb
        subst hb
        exact Nat.le_of_not_lt hge

theorem bestFitSearch_ub {size B : Nat} : ∀ {t : Tree} {b : Nat × Nat},
    treeAll (fun x => decide (x ≤ B)) t = true → bestFitSearch size t = some b →
    b.1 ≤ B := by
  intro t
  induction t with
  | nil => intro b _ hb; simp [bestFitSearch] at hb
  | node sz id l r h ihl ihr =>
    intro b hall hb
    simp only [treeAll, Bool.and_eq_true, decide_eq_true_eq] at hall
    obtain ⟨⟨hsz, hl⟩, hr⟩ := hall
    simp only [bestFitSearch] at hb
    split at hb
    · exact ihr hr hb
    · cases hsl : bestFitSearch size l with
      | some b2 =>
        rw [hsl] at hb
        simp only [Option.some.injEq] at hb
        subst hb
        exact ihl hl hsl
      | none =>
        rw [hsl] at hb
        simp only [Option.some.injEq] at hb
        subst hb
        exact hsz

theorem bestFitSearch_none_lt {size : Nat} : ∀ {t : Tree}, isBST t = true →
    bestFitSearch size t = none → treeAll (fun x => decide (x < size)) t = true := by
  intro t
  induction t with
  | nil => intro _ _; rfl
  | node sz id l r h ihl ihr =>
    intro hb hs
    simp only [isBST, Bool.and_eq_true] at hb
    obtain ⟨⟨⟨hall_l, hall_r⟩, hbl⟩, hbr⟩ := hb
    simp only [bestFitSearch] at hs
    split at hs
    · rename_i hlt
      simp only [treeAll, Bool.and_eq_true, decide_eq_true_eq]
      refine ⟨⟨hlt, ?_⟩, ihr hbr hs⟩
      exact treeAll_imp
        (fun x hx => by simp only [decide_eq_true_eq] at hx ⊢; omega) hall_l
    · exfalso
      cases hsl : bestFitSearch size l <;> rw [hsl] at hs <;> simp at hs

theorem bestFitSearch_of_all_lt {size : Nat} : ∀ {t : Tree},
    treeAll (fun x => decide (x < size)) t = true → bestFitSearch size t = none := by
  intro t
  induction t with
  | nil => intro _; rfl
  | node sz id l r h ihl ihr =>
    intro hall
    simp only [treeAll, Bool.and_eq_true, decide_eq_true_eq] at hall
    obtain ⟨⟨hsz, hl⟩, hr⟩ := hall
    simp only [bestFitSearch]
    rw [if_pos hsz]
    exact ihr hr

theorem bestFitSearch_min {size : Nat} : ∀ {t : Tree} {b : Nat × Nat},
    isBST t = true → bestFitSearch size t = some b →
    treeAll (fun x => decide (x < size) || decide (b.1 ≤ x)) t = true := by
  intro t
  induction t with
  | nil => intro b _ hb; simp [bestFitSearch] at hb
  | node sz id l r h ihl ihr =>
    intro b hb hs
    simp only [isBST, Bool.and_eq_true] at hb
    obtain ⟨⟨⟨hall_l, hall_r⟩, hbl⟩, hbr⟩ := hb
    simp only [bestFitSearch] at hs
    split at hs
    · rename_i hlt
      simp only [treeAll, Bool.and_eq_true, Bool.or_eq_true, decide_eq_true_eq]
      refine ⟨⟨Or.inl hlt, ?_⟩, ihr hbr hs⟩
      exact treeAll_imp
        (fun x hx => by
          simp only [decide_eq_true_eq, Bool.or_eq_true] at hx ⊢; omega) hall_l
    · rename_i hge
      cases hsl : bestFitSearch size l with
      | some b2 =>
        rw [hsl] at hs
        simp only [Option.some.injEq] at hs
        subst hs
        have hub : b2.1 ≤ sz := bestFitSearch_ub hall_l hsl
        simp only [treeAll, Bool.and_eq_true, Bool.or_eq_true, decide_eq_true_eq]
        refine ⟨⟨Or.inr hub, ihl hbl hsl⟩, ?_⟩
        exact treeAll_imp
          (fun x hx => by
            simp only [decide_eq_true_eq, Bool.or_eq_true] at hx ⊢; omega) hall_r
      | none =>
        rw [hsl] at hs
        simp only [Option.some.injEq] at hs
        subst hs
        simp only [treeAll, Bool.and_eq_true, Bool.or_eq_true, decide_eq_true_eq]
        refine ⟨⟨Or.inr (le_refl _), ?_⟩, ?_⟩
        · exact treeAll_imp
            (fun x hx => by
              simp only [decide_eq_true_eq, Bool.or_eq_true] at hx ⊢; omega)
            (bestFitSearch_none_lt hbl hsl)
        · exact treeAll_imp
            (fun x hx => by
              simp only [decide_eq_true_eq, Bool.or_eq_true] at hx ⊢; omega) hall_r

theorem treeAll_node_iff {p : Nat → Bool} {sz id : Nat} {l r : Tree} {h : Nat} :
    treeAll p (.node sz id l r h) = true ↔
      (p sz = true ∧ treeAll p l = true ∧ treeAll p r = true) := by
  simp only [treeAll, Bool.and_eq_true, and_assoc]

theorem isBST_node_iff {sz id : Nat} {l r : Tree} {h : Nat} :
    isBST (.node sz id l r h) = true ↔
      (treeAll (fun x => decide (x ≤ sz)) l = true ∧
       treeAll (fun x => decide (sz ≤ x)) r = true ∧
       isBST l = true ∧ isBST r = true) := by
  simp only [isBST, Bool.and_eq_true, and_assoc]

/-- Unfolding `best_fit_remove_recursive` at the pointer-equal node. -/
theorem remove_at_node {msz mid sz id : Nat} {l r : Tree} {h : Nat} (heq : mid = id) :
    best_fit_remove_recursive msz mid (.node sz id l r h) =
      match l with
      | .nil => some r
      | .node .. =>
        match r with
        | .nil => some l
        | .node .. =>
          (best_fit_remove_recursive (leftmost r).1 (leftmost r).2.1 r).map
            (fun rr => .node (leftmost r).1 (leftmost r).2.1 l rr (leftmost r).2.2) := by
  simp only [best_fit_remove_recursive]
  rw [if_pos heq]

/-- Unfolding `best_fit_remove_recursive` when the search goes right. -/
theorem remove_descend_right {msz mid sz id : Nat} {l r : Tree} {h : Nat}
    (hne : mid ≠ id) (hlt : sz < msz) :
    best_fit_remove_recursive msz mid (.node sz id l r h) =
      (best_fit_remove_recursive msz mid r).map
        (fun rr => best_fit_balance_tree (.node sz id l rr h)) := by
  simp only [best_fit_remove_recursive]
  rw [if_neg hne, if_pos hlt]

/-- Unfolding `best_fit_remove_recursive` when the search goes left. -/
theorem remove_descend_left {msz mid sz id : Nat} {l r : Tree} {h : Nat}
    (hne : mid ≠ id) (hge : ¬ sz < msz) :
    best_fit_remove_recursive msz mid (.node sz id l r h) =
      (best_fit_remove_recursive msz mid l).map
        (fun ll => best_fit_balance_tree (.node sz id ll r h)) := by
  simp only [best_fit_remove_recursive]
  rw [if_neg hne, if_neg hge]

theorem treeAll_remove {p : Nat → Bool} : ∀ {t : Tree} {msz mid : Nat} {u : Tree},
    treeAll p t = true → best_fit_remove_recursive msz mid t = some u →
    treeAll p u = true := by
  intro t
  induction t with
  | nil => intro msz mid u _ hrem; simp [best_fit_remove_recursive] at hrem
  | node sz id l r h ihl ihr =>
    intro msz mid u hall hrem
    rw [treeAll_node_iff] at hall
    obtain ⟨hp, hl, hr⟩ := hall
    simp only [best_fit_remove_recursive] at hrem
    split at hrem
    · cases l with
      | nil =>
        simp only [Option.some.injEq] at hrem
        subst hrem
        exact hr
      | node a b c d e =>
        cases r with
        | nil =>
          simp only [Option.some.injEq] at hrem
          subst hrem
          exact hl
        | node a2 b2 c2 d2 e2 =>
          rw [Option.map_eq_some'] at hrem
          obtain ⟨rr, hrr, rfl⟩ := hrem
          rw [treeAll_node_iff]
          exact ⟨leftmost_all hr (by simp), hl, ihr hr hrr⟩
    · split at hrem
      · rw [Option.map_eq_some'] at hrem
        obtain ⟨rr, hrr, rfl⟩ := hrem
        rw [treeAll_balance, treeAll_node_iff]
        exact ⟨hp, hl, ihr hr hrr⟩
      · rw [Option.map_eq_some'] at hrem
        obtain ⟨ll, hll, rfl⟩ := hrem
        rw [treeAll_balance, treeAll_node_iff]
        exact ⟨hp, ihl hl hll, hr⟩

theorem isBST_remove : ∀ {t : Tree} {msz mid : Nat} {u : Tree},
    isBST t = true → best_fit_remove_recursive msz mid t = some u →
    isBST u = true := by
  intro t
  induction t with
  | nil => intro msz mid u _ hrem; simp [best_fit_remove_recursive] at hrem
  | node sz id l r h ihl ihr =>
    intro msz mid u hb hrem
    rw [isBST_node_iff] at hb
    obtain ⟨hall_l, hall_r, hbl, hbr⟩ := hb
    simp only [best_fit_remove_recursive] at hrem
    split at hrem
    · cases l with
      | nil =>
        simp only [Option.some.injEq] at hrem
        subst hrem
        exact hbr
      | node a b c d e =>
        cases r with
        | nil =>
          simp only [Option.some.injEq] at hrem
          subst hrem
          exact hbl
        | node a2 b2 c2 d2 e2 =>
          rw [Option.map_eq_some'] at hrem
          obtain ⟨rr, hrr, rfl⟩ := hrem
          have hrne : (Tree.node a2 b2 c2 d2 e2) ≠ Tree.nil := by simp
          have hszlm : sz ≤ (leftmost (Tree.node a2 b2 c2 d2 e2)).1 := by
            simpa using leftmost_all (p := fun x => decide (sz ≤ x)) hall_r hrne
          rw [isBST_node_iff]
          exact ⟨treeAll_le_trans hszlm hall_l,
                 treeAll_remove (leftmost_min hbr hrne) hrr, hbl, ihr hbr hrr⟩
    · split at hrem
      · rw [Option.map_eq_some'] at hrem
        obtain ⟨rr, hrr, rfl⟩ := hrem
        apply isBST_balance
        rw [isBST_node_iff]
        exact ⟨hall_l, treeAll_remove hall_r hrr, hbl, ihr hbr hrr⟩
      · rw [Option.map_eq_some'] at hrem
        obtain ⟨ll, hll, rfl⟩ := hrem
        apply isBST_balance
        rw [isBST_node_iff]
        exact ⟨treeAll_remove hall_l hll, hall_r, ihl hbl hll, hbr⟩

theorem remove_leftmost_isSome : ∀ {t : Tree}, isBST t = true → t ≠ .nil →
    (best_fit_remove_recursive (leftmost t).1 (leftmost t).2.1 t).isSome = true := by
  intro t
  induction t with
  | nil => intro _ hne; exact absurd rfl hne
  | node sz id l r h ihl ihr =>
    intro hb _
    rw [isBST_node_iff] at hb
    obtain ⟨hall_l, hall_r, hbl, hbr⟩ := hb
    cases l with
    | nil =>
      rw [leftmost_node_nil]
      rw [remove_at_node rfl]
      rfl
    | node a b c d e =>
      rw [leftmost_node_node]
      by_cases hid : (leftmost (Tree.node a b c d e)).2.1 = id
      · rw [remove_at_node hid]
        cases r with
        | nil => rfl
        | node a2 b2 c2 d2 e2 =>
          have hsr := ihr hbr (by simp)
          rw [Option.isSome_iff_exists] at hsr
          obtain ⟨rr, hrr⟩ := hsr
          simp [hrr]
      · have hlm : (leftmost (Tree.node a b c d e)).1 ≤ sz := by
          simpa using leftmost_all (p := fun x => decide (x ≤ sz)) hall_l (by simp)
        have hsl := ihl hbl (by simp)
        rw [Option.isSome_iff_exists] at hsl
        obtain ⟨ll, hll⟩ := hsl
        rw [remove_descend_left hid (by omega)]
        simp [hll]

theorem remove_isSome_of_search : ∀ {t : Tree} {size : Nat} {b : Nat × Nat},
    isBST t = true → bestFitSearch size t = some b →
    (best_fit_remove_recursive b.1 b.2 t).isSome = true := by
  intro t
  induction t with
  | nil => intro size b _ hs; simp [bestFitSearch] at hs
  | node sz id l r h ihl ihr =>
    intro size b hb hs
    rw [isBST_node_iff] at hb
    obtain ⟨hall_l, hall_r, hbl, hbr⟩ := hb
    by_cases hid : b.2 = id
    · rw [remove_at_node hid]
      cases l with
      | nil => rfl
      | node a b1 c d e =>
        cases r with
        | nil => rfl
        | node a2 b2 c2 d2 e2 =>
          have hsr := remove_leftmost_isSome hbr (by simp)
          rw [Option.isSome_iff_exists] at hsr
          obtain ⟨rr, hrr⟩ := hsr
          simp [hrr]
    · simp only [bestFitSearch] at hs
      split at hs
      · rename_i hlt
        have hge := bestFitSearch_ge hs
        have hsr := ihr hbr hs
        rw [Option.isSome_iff_exists] at hsr
        obtain ⟨rr, hrr⟩ := hsr
        rw [remove_descend_right hid (by omega)]
        simp [hrr]
      · rename_i hge
        cases hsl : bestFitSearch size l with
        | some b2 =>
          rw [hsl] at hs
          simp only [Option.some.injEq] at hs
          subst hs
          have hub : b2.1 ≤ sz := bestFitSearch_ub hall_l hsl
          have hsll := ihl hbl hsl
          rw [Option.isSome_iff_exists] at hsll
          obtain ⟨ll, hll⟩ := hsll
          rw [remove_descend_left hid (by omega)]
          simp [hll]
        | none =>
          rw [hsl] at hs
          simp only [Option.some.injEq] at hs
          exfalso
          apply hid
          subst hs
          rfl

theorem ffSearch_map_fst (size : Nat) : ∀ (l : List (Nat × Nat)),
    (ffSearch size l).map Prod.fst = l.find? (fun b => decide (size ≤ b.2)) := by
  intro l
  induction l with
  | nil => rfl
  | cons b rest ih =>
    simp only [ffSearch]
    split
    · rename_i hlt
      rw [List.find?_cons_of_neg _ (by simp only [decide_eq_true_eq]; omega)]
      rw [← ih, Option.map_map]
      rfl
    · rename_i hge
      rw [List.find?_cons_of_pos _ (by simp only [decide_eq_true_eq]; omega)]
      rfl

theorem ffSearch_none_of_all {size : Nat} : ∀ {l : List (Nat × Nat)},
    l.all (fun b => decide (b.2 < size)) = true → ffSearch size l = none := by
  intro l
  induction l with
  | nil => intro _; rfl
  | cons b rest ih =>
    intro hall
    simp only [List.all_cons, Bool.and_eq_true, decide_eq_true_eq] at hall
    simp only [ffSearch]
    rw [if_pos hall.1, ih hall.2]
    rfl

/-- Unfolding `firstFitMallocF` on the no-candidate path: one page is
requested and the call retries. -/
theorem ffMalloc_step_none {n size : Nat} {s : FFState}
    (hs : ffSearch size s.freeList = none) :
    firstFitMallocF (n+1) size s =
      firstFitMallocF n size
        { freeList := (s.nextPage, pageSize - ffHeaderSize) :: s.freeList,
          nextPage := s.nextPage + pageSize } := by
  simp only [firstFitMallocF, hs]

/-- Unfolding `firstFitMallocF` when the scan finds a fitting block. -/
theorem ffMalloc_step_found {n size : Nat} {s : FFState} {a bsz : Nat}
    {rest : List (Nat × Nat)}
    (hs : ffSearch size s.freeList = some ((a, bsz), rest)) :
    firstFitMallocF (n+1) size s =
      if ffHeaderSize < bsz - size then
        some (a + ffHeaderSize, size,
              { freeList := (a + ffHeaderSize + size, bsz - size - ffHeaderSize) :: rest,
                nextPage := s.nextPage })
      else
        some (a + ffHeaderSize, bsz, { freeList := rest, nextPage := s.nextPage }) := by
  simp only [firstFitMallocF, hs]

/-- Unfolding `bestFitMallocF` on the no-candidate path. -/
theorem bfMalloc_step_none {n size : Nat} {s : BFState}
    (hsr : bestFitSearch size s.tree = none) :
    bestFitMallocF (n+1) size s =
      bestFitMallocF n size
        { tree := insertBlock (pageSize - bfHeaderSize) s.nextPage s.tree,
          nextPage := s.nextPage + pageSize } := by
  simp only [bestFitMallocF, hsr]

/-- Unfolding `bestFitMallocF` when the descent finds a best candidate and
the removal succeeds. -/
theorem bfMalloc_step_found {n size : Nat} {s : BFState} {bsz bid : Nat} {t1 : Tree}
    (hsr : bestFitSearch size s.tree = some (bsz, bid))
    (hrem : best_fit_remove_from_tree bsz bid s.tree = some t1) :
    bestFitMallocF (n+1) size s =
      if bfHeaderSize < bsz - size then
        some (bid + bfHeaderSize, ⟨size, .nil, .nil, 1⟩,
              { tree := insertBlock (bsz - size - bfHeaderSize)
                          (bid + bfHeaderSize + size) t1,
                nextPage := s.nextPage })
      else
        some (bid + bfHeaderSize, ⟨bsz, .nil, .nil, 1⟩,
              { tree := t1, nextPage := s.nextPage }) := by
  simp only [bestFitMallocF, hsr, hrem]

/-- Unfolding `bestFitMallocF` when the removal hits the undefined NULL
dereference. -/
theorem bfMalloc_step_stuck {n size : Nat} {s : BFState} {bsz bid : Nat}
    (hsr : bestFitSearch size s.tree = some (bsz, bid))
    (hrem : best_fit_remove_from_tree bsz bid s.tree = none) :
    bestFitMallocF (n+1) size s = none := by
  simp only [bestFitMallocF, hsr, hrem]

theorem ff_oversize_none {size : Nat} (hsz : pageSize - ffHeaderSize < size) :
    ∀ (fuel : Nat) (s : FFState),
      s.freeList.all (fun b => decide (b.2 < size)) = true →
      firstFitMallocF fuel size s = none := by
  intro fuel
  induction fuel with
  | zero => intro s _; rfl
  | succ n ih =>
    intro s hall
    rw [ffMalloc_step_none (ffSearch_none_of_all hall)]
    refine ih _ ?_
    simp only [List.all_cons, Bool.and_eq_true, decide_eq_true_eq]
    exact ⟨hsz, hall⟩

theorem bf_oversize_none {size : Nat} (hsz : pageSize - bfHeaderSize < size) :
    ∀ (fuel : Nat) (s : BFState),
      treeAll (fun x => decide (x < size)) s.tree = true →
      bestFitMallocF fuel size s = none := by
  intro fuel
  induction fuel with
  | zero => intro s _; rfl
  | succ n ih =>
    intro s hall
    rw [bfMalloc_step_none (bestFitSearch_of_all_lt hall)]
    refine ih _ ?_
    rw [treeAll_insertBlock]
    exact ⟨by simp only [decide_eq_true_eq]; exact hsz, hall⟩

theorem foldl_bind_none (ops : List TreeOp) :
    ops.foldl (fun ot op => ot.bind (fun t => applyOp t op)) none = none := by
  induction ops with
  | nil => rfl
  | cons op rest ih => exact ih

theorem runOpsAux : ∀ (ops : List TreeOp) (t0 : Tree), isBST t0 = true →
    ∀ {t : Tree},
      ops.foldl (fun ot op => ot.bind (fun u => applyOp u op)) (some t0) = some t →
      isBST t = true := by
  intro ops
  induction ops with
  | nil =>
    intro t0 h0 t ht
    simp only [List.foldl_nil, Option.some.injEq] at ht
    subst ht
    exact h0
  | cons op rest ih =>
    intro t0 h0 t ht
    simp only [List.foldl_cons] at ht
    cases op with
    | ins sz id =>
      exact ih _ (isBST_insertBlock h0) ht
    | del sz id =>
      cases hrem : best_fit_remove_from_tree sz id t0 with
      | none =>
        rw [show (some t0).bind (fun u => applyOp u (TreeOp.del sz id)) =
              best_fit_remove_from_tree sz id t0 from rfl, hrem] at ht
        rw [foldl_bind_none] at ht
        exact absurd ht (by simp)
      | some t1 =>
        rw [show (some t0).bind (fun u => applyOp u (TreeOp.del sz id)) =
              best_fit_remove_from_tree sz id t0 from rfl, hrem] at ht
        exact ih _ (isBST_remove h0 hrem) ht

theorem nextTag_ne_zero (t : Nat) : nextTag t ≠ 0 := by
  simp only [nextTag]
  split <;> omega

theorem bf_malloc_header_detached : ∀ (fuel size : Nat) (s : BFState) (p : Nat)
    (hd : Header) (s2 : BFState), bestFitMallocF fuel size s = some (p, hd, s2) →
    hd.left = Tree.nil ∧ hd.right = Tree.nil ∧ hd.height = 1 := by
  intro fuel
  induction fuel with
  | zero => intro size s p hd s2 hmal; exact absurd hmal (by simp [bestFitMallocF])
  | succ n ih =>
    intro size s p hd s2 hmal
    cases hsr : bestFitSearch size s.tree with
    | none =>
      rw [bfMalloc_step_none hsr] at hmal
      exact ih _ _ _ _ _ hmal
    | some b =>
      obtain ⟨bsz, bid⟩ := b
      cases hrem : best_fit_remove_from_tree bsz bid s.tree with
      | none =>
        rw [bfMalloc_step_stuck hsr hrem] at hmal
        exact absurd hmal (by simp)
      | some t1 =>
        rw [bfMalloc_step_found hsr hrem] at hmal
        split at hmal <;>
          (simp only [Option.some.injEq, Prod.mk.injEq] at hmal
           obtain ⟨-, h2, -⟩ := hmal
           subst h2
           exact ⟨rfl, rfl, rfl⟩)

theorem ff_small_succeeds {size : Nat} (h1 : 8 ≤ size) (h2 : size ≤ 4000)
    (s : FFState) :
    ∃ p a s2, firstFitMallocF 2 size s = some (p, a, s2) ∧
      s2.nextPage ≤ s.nextPage + pageSize ∧ 0 < p := by
  cases hs : ffSearch size s.freeList with
  | some pr =>
    obtain ⟨⟨a, bsz⟩, rest⟩ := pr
    rw [ffMalloc_step_found hs]
    split
    · exact ⟨_, _, _, rfl, Nat.le_add_right _ _, by simp only [ffHeaderSize]; omega⟩
    · exact ⟨_, _, _, rfl, Nat.le_add_right _ _, by simp only [ffHeaderSize]; omega⟩
  | none =>
    rw [ffMalloc_step_none hs]
    have hs2 : ffSearch size ((s.nextPage, pageSize - ffHeaderSize) :: s.freeList) =
        some ((s.nextPage, pageSize - ffHeaderSize), s.freeList) := by
      simp only [ffSearch]
      rw [if_neg (by simp only [pageSize, ffHeaderSize]; omega)]
    rw [ffMalloc_step_found hs2]
    split
    · exact ⟨_, _, _, rfl, le_refl _, by simp only [ffHeaderSize]; omega⟩
    · exact ⟨_, _, _, rfl, le_refl _, by simp only [ffHeaderSize]; omega⟩

theorem bf_small_succeeds {size : Nat} (h1 : 8 ≤ size) (h2 : size ≤ 4000)
    (s : BFState) (hb : isBST s.tree = true) :
    ∃ p hd s2, bestFitMallocF 2 size s = some (p, hd, s2) ∧
      s2.nextPage ≤ s.nextPage + pageSize ∧ 0 < p := by
  cases hsr : bestFitSearch size s.tree with
  | some b =>
    obtain ⟨bsz, bid⟩ := b
    have hrs := remove_isSome_of_search hb hsr
    rw [Option.isSome_iff_exists] at hrs
    obtain ⟨t1, hrem⟩ := hrs
    have hrem2 : best_fit_remove_from_tree bsz bid s.tree = some t1 := hrem
    rw [bfMalloc_step_found hsr hrem2]
    split
    · exact ⟨_, _, _, rfl, Nat.le_add_right _ _, by simp only [bfHeaderSize]; omega⟩
    · exact ⟨_, _, _, rfl, Nat.le_add_right _ _, by simp only [bfHeaderSize]; omega⟩
  | none =>
    rw [bfMalloc_step_none hsr]
    have hb1 : isBST (insertBlock (pageSize - bfHeaderSize) s.nextPage s.tree) = true :=
      isBST_insertBlock hb
    cases hsr1 : bestFitSearch size (insertBlock (pageSize - bfHeaderSize) s.nextPage s.tree) with
    | none =>
      exfalso
      have hlt := bestFitSearch_none_lt hb1 hsr1
      rw [treeAll_insertBlock] at hlt
      have hc := hlt.1
      simp only [decide_eq_true_eq, pageSize, bfHeaderSize] at hc
      omega
    | some b =>
      obtain ⟨bsz, bid⟩ := b
      have hrs := remove_isSome_of_search hb1 hsr1
      rw [Option.isSome_iff_exists] at hrs
      obtain ⟨t1, hrem⟩ := hrs
      have hrem2 : best_fit_remove_from_tree bsz bid
          (insertBlock (pageSize - bfHeaderSize) s.nextPage s.tree) = some t1 := hrem
      rw [bfMalloc_step_found hsr1 hrem2]
      split
      · exact ⟨_, _, _, rfl, le_refl _, by simp only [bfHeaderSize]; omega⟩
      · exact ⟨_, _, _, rfl, le_refl _, by simp only [bfHeaderSize]; omega⟩

/-! ## Claim theorems -/

/-- Claim C1, counterexample: from the initialized tree, two insert
operations (a block of size 24 at address 1, then a block of size 16 at
address 2) already break the AVL height balance: the single left rotation
performed at the dummy root leaves the node of size 24 with a left subtree
of actual height 2 and an empty right subtree. -/
theorem avl_balance_cex :
    runOps [TreeOp.ins 24 1, TreeOp.ins 16 2] =
      some (insertBlock 16 2 (insertBlock 24 1 initTree)) ∧
    isAVL (insertBlock 16 2 (insertBlock 24 1 initTree)) = false :=
  ⟨rfl, by decide⟩

/-- Claim C1 (amended): after any sequence of insert and remove operations
on the free-block tree that completes without the removal's NULL
dereference, every node satisfies the binary-search ordering on sizes
(sizes in the left subtree at most the node's, sizes in the right subtree
at least it); the AVL height-balance bound itself does not hold. -/
theorem tree_ops_preserve_bst (ops : List TreeOp) (t : Tree)
    (h : runOps ops = some t) : isBST t = true :=
  runOpsAux ops initTree (by decide) h

/-- Witness for the amended C1 statement at a concrete operation list. -/
theorem tree_ops_preserve_bst_witness :
    isBST (insertBlock 16 2 (insertBlock 24 1 initTree)) = true :=
  tree_ops_preserve_bst [TreeOp.ins 24 1, TreeOp.ins 16 2] _ rfl

/-- Claim C2: whenever the `best_fit_malloc` tree search finds a candidate
in a search-ordered tree, the candidate fits the request and its size is
minimal among all blocks in the tree that fit; in particular, with free
blocks of sizes 40 and 24 a request for 20 selects the 24-sized block. -/
theorem best_fit_minimality :
    (∀ (t : Tree) (size : Nat) (b : Nat × Nat), isBST t = true →
        bestFitSearch size t = some b →
        size ≤ b.1 ∧
        treeAll (fun x => decide (x < size) || decide (b.1 ≤ x)) t = true) ∧
    bestFitSearch 20 (insertBlock 24 2 (insertBlock 40 1 initTree)) = some (24, 2) := by
  refine ⟨fun t size b hb hs => ⟨bestFitSearch_ge hs, bestFitSearch_min hb hs⟩, ?_⟩
  decide

/-- Witness for C2 at the concrete two-block tree. -/
theorem best_fit_minimality_witness :
    20 ≤ 24 ∧
    treeAll (fun x => decide (x < 20) || decide (24 ≤ x))
      (insertBlock 24 2 (insertBlock 40 1 initTree)) = true :=
  best_fit_minimality.1 (insertBlock 24 2 (insertBlock 40 1 initTree)) 20 (24, 2)
    (by decide) (by decide)

/-- Claim C3: the shared splitting rule.  When a free block of size S is
chosen for a request of size R (S at least R): if S - R exceeds the header
size, the allocator hands out an R-sized block and pushes a new free block
of size S - R - header whose header sits immediately after the payload (at
payload + R) into the free collection; otherwise the whole block of size S
is handed out with its size field unmodified. -/
theorem split_rule :
    (∀ (fuel size : Nat) (s : FFState) (a S : Nat) (rest : List (Nat × Nat)),
        ffSearch size s.freeList = some ((a, S), rest) → size ≤ S →
        firstFitMallocF (fuel+1) size s =
          some (a + ffHeaderSize,
                (if ffHeaderSize < S - size then size else S),
                { freeList :=
                    if ffHeaderSize < S - size then
                      (a + ffHeaderSize + size, S - size - ffHeaderSize) :: rest
                    else rest,
                  nextPage := s.nextPage })) ∧
    (∀ (fuel size : Nat) (s : BFState) (S bid : Nat) (t1 : Tree),
        bestFitSearch size s.tree = some (S, bid) →
        best_fit_remove_from_tree S bid s.tree = some t1 → size ≤ S →
        bestFitMallocF (fuel+1) size s =
          some (bid + bfHeaderSize,
                ⟨(if bfHeaderSize < S - size then size else S), .nil, .nil, 1⟩,
                { tree :=
                    if bfHeaderSize < S - size then
                      insertBlock (S - size - bfHeaderSize) (bid + bfHeaderSize + size) t1
                    else t1,
                  nextPage := s.nextPage })) := by
  constructor
  · intro fuel size s a S rest hs _
    rw [ffMalloc_step_found hs]
    by_cases hc : ffHeaderSize < S - size
    · rw [if_pos hc, if_pos hc, if_pos hc]
    · rw [if_neg hc, if_neg hc, if_neg hc]
  · intro fuel size s S bid t1 hsr hrem _
    rw [bfMalloc_step_found hsr hrem]
    by_cases hc : bfHeaderSize < S - size
    · rw [if_pos hc, if_pos hc, if_pos hc]
    · rw [if_neg hc, if_neg hc, if_neg hc]

/-- Witness for C3: a 48-sized block serving an 8-byte request splits in
both allocators. -/
theorem split_rule_witness :
    firstFitMallocF 1 8 ⟨[(1000, 48), (0, 0)], 8192⟩ =
      some (1000 + ffHeaderSize,
            (if ffHeaderSize < 48 - 8 then 8 else 48),
            { freeList :=
                if ffHeaderSize < 48 - 8 then
                  (1000 + ffHeaderSize + 8, 48 - 8 - ffHeaderSize) :: [(0, 0)]
                else [(0, 0)],
              nextPage := 8192 }) ∧
    bestFitMallocF 1 8 ⟨insertBlock 48 1000 initTree, 8192⟩ =
      some (1000 + bfHeaderSize,
            ⟨(if bfHeaderSize < 48 - 8 then 8 else 48), .nil, .nil, 1⟩,
            { tree :=
                if bfHeaderSize < 48 - 8 then
                  insertBlock (48 - 8 - bfHeaderSize) (1000 + bfHeaderSize + 8)
                    (Tree.node 0 0 .nil .nil 1)
                else Tree.node 0 0 .nil .nil 1,
              nextPage := 8192 }) :=
  ⟨split_rule.1 0 8 ⟨[(1000, 48), (0, 0)], 8192⟩ 1000 48 [(0, 0)] (by decide) (by decide),
   split_rule.2 0 8 ⟨insertBlock 48 1000 initTree, 8192⟩ 48 1000
     (Tree.node 0 0 .nil .nil 1) (by decide) (by decide) (by decide)⟩

/-- Claim C4: `first_fit_malloc` takes the first block in list order whose
size is at least the request, regardless of how much larger it is; with a
40-sized block preceding a 24-sized block in the free list, a request for
20 returns the 40-sized block's payload. -/
theorem first_fit_takes_first :
    (∀ (size : Nat) (l : List (Nat × Nat)),
        (ffSearch size l).map Prod.fst = l.find? (fun b => decide (size ≤ b.2))) ∧
    (firstFitMallocF 2 20 ⟨[(1000, 40), (2000, 24), (0, 0)], 4096⟩).map
        (fun r => r.1) = some (1000 + ffHeaderSize) :=
  ⟨fun size l => ffSearch_map_fst size l, by decide⟩

/-- Claim C5 (the code violates it): a request larger than a page's usable
capacity makes both allocators retry page acquisition forever instead of
failing fast: for every fuel bound the fuelled model of the self-recursive
retry has still not returned. -/
theorem oversize_request_never_returns (fuel size : Nat) (sf : FFState) (sb : BFState)
    (hsz : pageSize - ffHeaderSize < size)
    (hf : sf.freeList.all (fun b => decide (b.2 < size)) = true)
    (hb : treeAll (fun x => decide (x < size)) sb.tree = true) :
    firstFitMallocF fuel size sf = none ∧ bestFitMallocF fuel size sb = none :=
  ⟨ff_oversize_none hsz fuel sf hf,
   bf_oversize_none
     (by simp only [pageSize, ffHeaderSize] at hsz
         simp only [pageSize, bfHeaderSize]
         omega) fuel sb hb⟩

/-- Witness for C5 at a request of 4088 bytes from the initialized
allocators, for any sample fuel. -/
theorem oversize_request_never_returns_witness :
    firstFitMallocF 5 4088 ⟨initFreeList, 0⟩ = none ∧
    bestFitMallocF 5 4088 ⟨initTree, 0⟩ = none :=
  oversize_request_never_returns 5 4088 ⟨initFreeList, 0⟩ ⟨initTree, 0⟩
    (by decide) (by decide) (by decide)

/-- Claim C6: for a request of 8 to 4000 bytes (a multiple of 8), both
allocators return a non-null payload with at most one page acquired: when
no free block fits, the freshly mapped page is formatted as one free block
of 4096 minus the header size (4080 first-fit, 4064 best-fit), which always
satisfies the retried request.  The best-fit part assumes the
search-ordering invariant of the free tree. -/
theorem alloc_small_succeeds (size : Nat) (sf : FFState) (sb : BFState)
    (h1 : 8 ≤ size) (h2 : size ≤ 4000) (h8 : size % 8 = 0)
    (hb : isBST sb.tree = true) :
    (∃ p a s2, firstFitMallocF 2 size sf = some (p, a, s2) ∧
        s2.nextPage ≤ sf.nextPage + pageSize ∧ 0 < p) ∧
    (∃ p hd s2, bestFitMallocF 2 size sb = some (p, hd, s2) ∧
        s2.nextPage ≤ sb.nextPage + pageSize ∧ 0 < p) :=
  ⟨ff_small_succeeds h1 h2 sf, bf_small_succeeds h1 h2 sb hb⟩

/-- Witness for C6 at the largest workload request size, 4000 bytes, from
the freshly initialized allocators. -/
theorem alloc_small_succeeds_witness :
    (∃ p a s2, firstFitMallocF 2 4000 ⟨initFreeList, 4096⟩ = some (p, a, s2) ∧
        s2.nextPage ≤ 4096 + pageSize ∧ 0 < p) ∧
    (∃ p hd s2, bestFitMallocF 2 4000 ⟨initTree, 4096⟩ = some (p, hd, s2) ∧
        s2.nextPage ≤ 4096 + pageSize ∧ 0 < p) :=
  alloc_small_succeeds 4000 ⟨initFreeList, 4096⟩ ⟨initTree, 4096⟩
    (by decide) (by decide) (by decide) (by decide)

/-- Claim C7: `release` returns exactly the block whose header sits one
header size below the payload pointer, with its size field unmodified, and
changes no other block: the first-fit free list gains exactly that block
at its head, and the best-fit tree's multiset of (address, size) blocks
gains exactly that one pair.  No adjacent blocks are merged.  The header
hypotheses record that a released pointer was handed out by the allocator,
whose malloc detaches the header linkage before returning. -/
theorem release_exact (ptr : Nat) (mem : Nat → Nat) (l : List (Nat × Nat))
    (hd : Header) (t : Tree) (hl : hd.left = Tree.nil) (hr : hd.right = Tree.nil) :
    first_fit_free ptr mem l = (ptr - ffHeaderSize, mem (ptr - ffHeaderSize)) :: l ∧
    treeBlocks (best_fit_free ptr hd t) =
      (ptr - bfHeaderSize, hd.size) ::ₘ treeBlocks t := by
  refine ⟨rfl, ?_⟩
  unfold best_fit_free best_fit_insert_to_tree
  rw [treeBlocks_insert, hl, hr]
  simp [treeBlocks]

/-- Witness for C7 releasing a concrete 8-sized block into both
collections. -/
theorem release_exact_witness :
    first_fit_free 1032 (fun a => a) [(0, 0)] =
      (1032 - ffHeaderSize, 1032 - ffHeaderSize) :: [(0, 0)] ∧
    treeBlocks (best_fit_free 1032 ⟨8, .nil, .nil, 1⟩ initTree) =
      (1032 - bfHeaderSize, 8) ::ₘ treeBlocks initTree :=
  release_exact 1032 (fun a => a) [(0, 0)] ⟨8, .nil, .nil, 1⟩ initTree rfl rfl

/-- Claim C8, counterexample: the first object allocated in one
`run_challenge` call is stamped with tag 0, because the rotating counter
starts at 0 and is used before it is advanced past 0. -/
theorem first_tag_is_zero : tagAt 0 = 0 := rfl

/-- Claim C8 (amended): every object after the first allocated in one
`run_challenge` call carries a non-zero tag byte; only object index 0 is
stamped with tag 0. -/
theorem tags_nonzero_after_first (n : Nat) (hn : 0 < n) : tagAt n ≠ 0 := by
  cases n with
  | zero => omega
  | succ m => exact nextTag_ne_zero (tagAt m)

/-- Witness for the amended C8 statement: the second object's tag is
non-zero. -/
theorem tags_nonzero_after_first_witness : tagAt 1 ≠ 0 :=
  tags_nonzero_after_first 1 (by decide)

/-- Claim C9: before freeing a scheduled object the harness verifies that
the first and last payload byte still carry the recorded tag; on any
mismatch the release aborts without passing the block to the allocator's
free operation, so a corrupted block never reaches the free collection of
either allocator. -/
theorem release_checks_tags (mem : Nat → Nat) (o : WObject) (s : List (Nat × Nat))
    (hd : Header) (t : Tree)
    (hbad : mem o.ptr ≠ o.tag ∨ mem (o.ptr + (o.size - 1)) ≠ o.tag) :
    releaseObjectFF mem o s = none ∧ releaseObjectBF mem o hd t = none := by
  have hc : tagCheck mem o = false := by
    rcases hbad with hbad | hbad
    · have hf : (mem o.ptr == o.tag) = false := by simpa using hbad
      simp [tagCheck, hf]
    · have hf : (mem (o.ptr + (o.size - 1)) == o.tag) = false := by simpa using hbad
      simp [tagCheck, hf]
  constructor <;> simp [releaseObjectFF, releaseObjectBF, hc]

/-- Witness for C9: an object whose memory bytes read 5 but whose recorded
tag is 7 is rejected by both release paths. -/
theorem release_checks_tags_witness :
    releaseObjectFF (fun _ => 5) ⟨1016, 8, 7⟩ [(0, 0)] = none ∧
    releaseObjectBF (fun _ => 5) ⟨1016, 8, 7⟩ ⟨8, .nil, .nil, 1⟩ initTree = none :=
  release_checks_tags (fun _ => 5) ⟨1016, 8, 7⟩ [(0, 0)] ⟨8, .nil, .nil, 1⟩ initTree
    (Or.inl (by decide))

/-- Claim C10: whenever `best_fit_malloc` returns, the handed-out header
has NULL left and right links and height 1 (reset explicitly right after
the tree removal), so the metadata node that `best_fit_free` re-inserts
without touching those fields is exactly a detached leaf. -/
theorem malloc_returns_detached_header (fuel size : Nat) (s : BFState) (p : Nat)
    (hd : Header) (s2 : BFState)
    (hmal : bestFitMallocF fuel size s = some (p, hd, s2)) :
    hd.left = Tree.nil ∧ hd.right = Tree.nil ∧ hd.height = 1 ∧
    Tree.node hd.size (p - bfHeaderSize) hd.left hd.right hd.height =
      Tree.node hd.size (p - bfHeaderSize) Tree.nil Tree.nil 1 := by
  obtain ⟨h1, h2, h3⟩ := bf_malloc_header_detached fuel size s p hd s2 hmal
  exact ⟨h1, h2, h3, by rw [h1, h2, h3]⟩

/-- Witness for C10 on a concrete allocation that maps one page and splits
it. -/
theorem malloc_returns_detached_header_witness :
    (⟨8, Tree.nil, Tree.nil, 1⟩ : Header).left = Tree.nil ∧
    (⟨8, Tree.nil, Tree.nil, 1⟩ : Header).right = Tree.nil ∧
    (⟨8, Tree.nil, Tree.nil, 1⟩ : Header).height = 1 ∧
    Tree.node (⟨8, Tree.nil, Tree.nil, 1⟩ : Header).size (4128 - bfHeaderSize)
        (⟨8, Tree.nil, Tree.nil, 1⟩ : Header).left
        (⟨8, Tree.nil, Tree.nil, 1⟩ : Header).right
        (⟨8, Tree.nil, Tree.nil, 1⟩ : Header).height =
      Tree.node (⟨8, Tree.nil, Tree.nil, 1⟩ : Header).size (4128 - bfHeaderSize)
        Tree.nil Tree.nil 1 :=
  malloc_returns_detached_header 2 8 ⟨initTree, 4096⟩ 4128 ⟨8, Tree.nil, Tree.nil, 1⟩
    ⟨Tree.node 0 0 Tree.nil (Tree.node 4024 4136 Tree.nil Tree.nil 1) 2, 8192⟩
    (by decide)

end Malloc
